import Mathlib

/-!
Verification of the Studymate RAG core against its specification.

The definitions below are a shallow embedding of the Python sources:
* `src/studymate/backend/app/ingestion/chunker.py` (sliding-window chunker),
* `src/studymate/backend/app/llm/prompts.py` (token-budget prompt assembler),
* `src/studymate/backend/app/retrieval/index.py` (`VectorSearchService.search_chunks`),
* `src/studymate/backend/app/llm/watsonx_client.py` (`generate_from_prompt`).

Python strings are modelled as `List Char` (chunker) or `String` (prompts);
`str.split()` with no argument is modelled by `splitWs`, `" ".join` by
`joinSpace`, `str.strip()` by `pyStrip`.  Python floats that only flow
through comparisons and formatting (similarity scores) are modelled as `ℚ`.
-/

set_option maxHeartbeats 1000000

namespace Studymate

/-- Python `str.split()` with no separator: skip whitespace runs, collect
maximal runs of non-whitespace characters.  Structural recursion on a fuel
bounded by the string length (each step consumes at least one character),
so the definition is kernel-reducible. -/
def splitWsF : Nat → List Char → List (List Char)
  | _, [] => []
  | 0, _ :: _ => []
  | fuel + 1, c :: rest =>
    if c.isWhitespace then splitWsF fuel rest
    else (c :: rest.takeWhile (fun d => !d.isWhitespace)) ::
      splitWsF fuel (rest.dropWhile (fun d => !d.isWhitespace))

/-- Python `str.split()` with no separator (see `splitWsF`). -/
def splitWs (l : List Char) : List (List Char) :=
  splitWsF l.length l

/-- Python `" ".join(words)`: concatenate with a single space between items. -/
def joinSpace : List (List Char) → List Char
  | [] => []
  | [w] => w
  | w :: ws => w ++ ' ' :: joinSpace ws

/-- Python `str.strip()`: remove leading and trailing whitespace. -/
def pyStrip (l : List Char) : List Char :=
  (((l.dropWhile Char.isWhitespace).reverse.dropWhile Char.isWhitespace)).reverse

/-- One element of the list returned by `Chunker.chunk_text` (a Python dict
with fixed keys; modelled as a structure). -/
structure Chunk where
  chunk_index : Nat
  start_word : Nat
  end_word : Nat
  page_start : Nat
  page_end : Nat
  text : List Char
  source_filename : List Char
  word_count : Nat
deriving DecidableEq, Repr

/-- Inner loop of `Chunker._estimate_page_range`: Python
`for i, page_words in enumerate(page_word_counts): if current + page_words >
pos: page = i + 1; break; current += page_words` with a `for`/`else` arm
returning `total_pages`. -/
def findPageAux : List Nat → Nat → Nat → Nat → Nat → Nat
  | [], _, _, _, tp => tp
  | c :: rest, pos, i, cum, tp =>
    if pos < cum + c then i + 1 else findPageAux rest pos (i + 1) (cum + c) tp

/-- Locate the 1-based page for a word position (both loops of
`_estimate_page_range` have this shape). -/
def findPage (counts : List Nat) (pos : Nat) (total_pages : Nat) : Nat :=
  findPageAux counts pos 0 0 total_pages

/-- `Chunker._estimate_page_range` from `chunker.py`.  The Python code also
computes `start_percent`/`end_percent`, which are never used; they are
omitted.  The `total_words` argument is likewise only used in that dead
code, and is kept for signature fidelity. -/
def estimate_page_range (start_word end_word total_words : Nat)
    (page_texts : List (List Char)) : Nat × Nat :=
  if page_texts = [] then (1, 1)
  else
    if page_texts.length = 0 then (1, 1)
    else
      let page_word_counts := page_texts.map (fun p => (splitWs p).length)
      let total_page_words := page_word_counts.sum
      if total_page_words = 0 then (1, 1)
      else
        (findPage page_word_counts start_word page_texts.length,
         findPage page_word_counts end_word page_texts.length)

/-- The chunk built by one iteration of the window loop in
`Chunker.chunk_text`, for window start `s` and running index `idx`. -/
def chunkAt (cs : Nat) (words : List (List Char)) (page_texts : List (List Char))
    (filename : List Char) (s idx : Nat) : Chunk :=
  let end_word := min (s + cs) words.length
  let chunk_words := (words.drop s).take (end_word - s)
  let pr := estimate_page_range s end_word words.length page_texts
  { chunk_index := idx
    start_word := s
    end_word := end_word
    page_start := pr.1
    page_end := pr.2
    text := joinSpace chunk_words
    source_filename := filename
    word_count := chunk_words.length }

/-- The window loop of `Chunker.chunk_text`: Python
`for i in range(0, len(words), stride)` with a `break` once
`end_word >= len(words)`.  `fuel` bounds the number of iterations; for any
`stride ≥ 1` a fuel of `words.length` is sufficient (each iteration either
breaks or advances `i` by at least one). -/
def chunkLoop (cs stride : Nat) (words : List (List Char))
    (page_texts : List (List Char)) (filename : List Char) :
    Nat → Nat → Nat → List Chunk
  | 0, _, _ => []
  | fuel + 1, i, idx =>
    if i < words.length then
      let c := chunkAt cs words page_texts filename i idx
      if words.length ≤ c.end_word then [c]
      else c :: chunkLoop cs stride words page_texts filename fuel (i + stride) (idx + 1)
    else []

/-- `Chunker.chunk_text` from `chunker.py`, for a chunker constructed with
`chunk_size = cs` and `chunk_overlap = ov` (so `stride = cs - ov`). -/
def chunk_text (cs ov : Nat) (text : List Char) (filename : List Char)
    (page_texts : List (List Char)) : List Chunk :=
  let stride := cs - ov
  if pyStrip text = [] then []
  else
    let words := splitWs text
    if words.length < cs then
      [{ chunk_index := 0
         start_word := 0
         end_word := words.length
         page_start := 1
         page_end := 1
         text := pyStrip text
         source_filename := filename
         word_count := words.length }]
    else chunkLoop cs stride words page_texts filename words.length 0 0

/-- `Chunker._calculate_num_chunks`: `ceil((N - chunk_size) / stride) + 1`
for `N ≥ chunk_size`, else 1.  The ceiling of a nonnegative integer
division is expressed in the usual `(a + b - 1) / b` form. -/
def calculate_num_chunks (cs ov : Nat) (num_words : Nat) : Nat :=
  if num_words < cs then 1
  else (num_words - cs + (cs - ov) - 1) / (cs - ov) + 1

/-- `RAG_SYSTEM_PROMPT` from `prompts.py`. -/
def RAG_SYSTEM_PROMPT : String :=
  "You are a helpful academic assistant. Your task is to answer questions based ONLY on the provided context from uploaded documents.\n\nIMPORTANT RULES:\n1. Answer ONLY using information from the provided context\n2. If the answer cannot be found in the context, say \"I don\x27t have enough information to answer this question based on the provided documents.\"\n3. Do not make up or infer information not present in the context\n4. Always cite your sources using the format [filename p.x–y] where x and y are page numbers\n5. Be concise but thorough in your answers\n6. If you need to reference multiple sources, cite each one separately\n\nContext will be provided as numbered evidence snippets with source information."

/-- A retrieved chunk as consumed by `build_rag_prompt` (a Python dict; the
keys read via `chunk.get` are modelled as structure fields, with the
similarity score as an exact rational). -/
structure PChunk where
  text : String
  source_filename : String
  page_start : Int
  page_end : Int
  score : ℚ
deriving DecidableEq, Repr

/-- `_estimate_tokens` from `prompts.py`: `max(1, len(text.split()))`. -/
def estimateTokens (s : String) : Nat :=
  max 1 (splitWs s.data).length

/-- Pad a remainder below 1000 to exactly three digits. -/
def pad3 (n : Nat) : String :=
  if n < 10 then "00" ++ toString n
  else if n < 100 then "0" ++ toString n
  else toString n

/-- Python `f"{score:.3f}"` on the rational score: three decimal places,
round half to even (the rounding of Python's fixed-point formatting;
Python formats the closest binary double, and on the exact decimal values
used in this development the two agree).  The magnitude in thousandths is
`1000 * |num| / den`, rounded on the Euclidean quotient and remainder so
the kernel can evaluate it. -/
def fmt3 (q : ℚ) : String :=
  let n : Int := 1000 * (q.num.natAbs : Int)
  let d : Int := (q.den : Int)
  let f := n.ediv d
  let r := n.emod d
  let m := (if 2 * r < d then f
            else if d < 2 * r then f + 1
            else if f % 2 = 0 then f else f + 1).toNat
  (if q < 0 then "-" else "") ++ toString (m / 1000) ++ "." ++ pad3 (m % 1000)

/-- One evidence entry of `build_rag_prompt`: Python
`f"- [{idx}] ({filename} p.{page_start}–{page_end}, score={score:.3f})\n{text}\n"`. -/
def renderEntry (idx : Nat) (c : PChunk) : String :=
  "- [" ++ toString idx ++ "] (" ++ c.source_filename ++ " p." ++ toString c.page_start
    ++ "–" ++ toString c.page_end ++ ", score=" ++ fmt3 c.score ++ ")\n"
    ++ c.text ++ "\n"

/-- Stable insertion for `sortDesc`: place `c` before the first element
whose score is not larger, keeping earlier equal-scored elements first. -/
def insertDesc (c : PChunk) : List PChunk → List PChunk
  | [] => [c]
  | d :: ds => if c.score < d.score then d :: insertDesc c ds else c :: d :: ds

/-- Python `sorted(chunks, key=lambda c: c.get("score", 0.0), reverse=True)`:
a stable sort by descending score (Python's sort is stable; any stable
descending insertion realises the same function). -/
def sortDesc : List PChunk → List PChunk
  | [] => []
  | c :: cs => insertDesc c (sortDesc cs)

/-- The greedy packing loop of `build_rag_prompt`: walk the ranked chunks,
render each entry, and `break` at the first entry whose estimated token
cost would push the running total over `budget`.  Returns the rendered
entries and the chunks used. -/
def packLoop (budget : Nat) : List PChunk → Nat → Nat → List String × List PChunk
  | [], _, _ => ([], [])
  | c :: rest, idx, toks =>
    let entry := renderEntry idx c
    let need := estimateTokens entry
    if budget < toks + need then ([], [])
    else
      let r := packLoop budget rest (idx + 1) (toks + need)
      (entry :: r.1, c :: r.2)

/-- Python `"\n".join(lines)`. -/
def joinNl : List String → String
  | [] => ""
  | [l] => l
  | l :: ls => l ++ "\n" ++ joinNl ls

/-- `build_rag_prompt` from `prompts.py`. -/
def build_rag_prompt (chunks : List PChunk) (question : String)
    (system_prompt : Option String) (max_total_tokens : Nat)
    (safety_margin : Nat) : String × List PChunk :=
  if chunks = [] then
    let system := system_prompt.getD RAG_SYSTEM_PROMPT
    (system ++ "\n\nContext:\n(none)\n\nQuestion: " ++ question ++ "\nAnswer:", [])
  else
    let system := system_prompt.getD RAG_SYSTEM_PROMPT
    let ranked := sortDesc chunks
    let header := system ++ "\n\nContext:"
    let budget := max_total_tokens - safety_margin
    let toks0 := estimateTokens system + estimateTokens "Question: "
      + estimateTokens question + 50
    let r := packLoop budget ranked 1 toks0
    (joinNl (header :: r.1 ++ ["\nQuestion: " ++ question ++ "\nAnswer:"]), r.2)

/-- Estimated token cost of each would-be evidence entry of `ranked`, with
1-based enumeration starting at `idx` (the cost the packing loop charges
for the j-th entry). -/
def entryTokens (ranked : List PChunk) (idx : Nat) : List Nat :=
  (List.enumFrom idx ranked).map (fun p => estimateTokens (renderEntry p.1 p.2))

/-- A Python value appearing in the dicts returned by
`VectorSearchService.search_chunks`. -/
inductive PyVal where
  | s : String → PyVal
  | i : Int → PyVal
  | q : ℚ → PyVal
deriving DecidableEq, Repr

/-- A row of the `chunks` table as read by `search_chunks` (the columns the
loop touches). -/
structure DBChunk where
  id : String
  document_id : String
  text : String
  page_start : Int
  page_end : Int
  chunk_index : Int
deriving DecidableEq, Repr

/-- The dict literal appended by `search_chunks` for one resolved position,
keys in insertion order. -/
def mkRecord (score : ℚ) (ch : DBChunk) : List (String × PyVal) :=
  [("chunk_id", .s ch.id), ("document_id", .s ch.document_id),
   ("text", .s ch.text), ("page_start", .i ch.page_start),
   ("page_end", .i ch.page_end), ("score", .q score),
   ("chunk_index", .i ch.chunk_index)]

/-- The resolution loop of `search_chunks`: `for score, idx in zip(scores,
indices)`: skip `idx < 0`; `select(Chunk).offset(idx).limit(1)` then
`scalar_one_or_none` is modelled as positional lookup in the chunk store;
append a record when a chunk resolves. -/
def searchLoop : List (ℚ × Int) → List DBChunk → List (List (String × PyVal))
  | [], _ => []
  | (score, idx) :: rest, db =>
    if idx < 0 then searchLoop rest db
    else
      match db.get? idx.toNat with
      | some ch => mkRecord score ch :: searchLoop rest db
      | none => searchLoop rest db

/-- `VectorSearchService.search_chunks` from `index.py`, with the FAISS
call abstracted as its output `(scores, indices)` and the database as an
ordered chunk store. -/
def search_chunks (scores : List ℚ) (indices : List Int)
    (db : List DBChunk) : List (List (String × PyVal)) :=
  if indices = [] then []
  else searchLoop (scores.zip indices) db

/-- Observable outcome of `WatsonxClient.generate_from_prompt`: the answer
string, the error string stored in `raw` on the failure path, and whether
`meta` carries the `"error": True` marker. -/
structure GenResult where
  answer : String
  raw_error : Option String
  meta_error : Bool
deriving DecidableEq, Repr

/-- Successful return of `generate_from_prompt` (answer from the SDK; no
error marker in `meta`). -/
def okResult (ans : String) : GenResult :=
  { answer := ans, raw_error := none, meta_error := false }

/-- Exhausted-retries return of `generate_from_prompt`:
`answer=""`, `raw={"error": str(last_err)}`, `meta` marked with `error`. -/
def failResult (last_err : Option String) : GenResult :=
  { answer := ""
    raw_error := some (match last_err with | some e => e | none => "None")
    meta_error := true }

/-- `time.sleep(min(2 ** (attempt - 1), 5))` between failed attempts. -/
def backoffDelay (attempt : Nat) : Nat :=
  min (2 ^ (attempt - 1)) 5

/-- The retry loop of `generate_from_prompt` over the remaining attempt
numbers, threading `last_err`.  The SDK call is abstracted as `gen`;
returns the result together with the list of backoff delays slept. -/
def genRun (gen : Nat → Except String String) :
    List Nat → Option String → GenResult × List Nat
  | [], last => (failResult last, [])
  | a :: rest, _ =>
    match gen a with
    | .ok ans => (okResult ans, [])
    | .error e =>
      if rest = [] then (failResult (some e), [])
      else
        let r := genRun gen rest (some e)
        (r.1, backoffDelay a :: r.2)

/-- `WatsonxClient.generate_from_prompt`: `for attempt in range(1,
self.max_retries + 1)` around the SDK call, with exponential backoff
between failed attempts. -/
def generate_from_prompt (max_retries : Nat)
    (gen : Nat → Except String String) : GenResult × List Nat :=
  genRun gen (List.range' 1 max_retries) none

/-! ### Helper lemmas about whitespace splitting -/

theorem takeWhile_append_of_sat {α : Type _} (p : α → Bool) (xs : List α) (y : α)
    (zs : List α) (hx : ∀ a ∈ xs, p a = true) (hy : p y = false) :
    (xs ++ y :: zs).takeWhile p = xs := by
  induction xs with
  | nil => simp [List.takeWhile, hy]
  | cons a l ih =>
    have ha : p a = true := hx a (by simp)
    simp only [List.cons_append, List.takeWhile_cons, ha, if_true]
    rw [ih (fun b hb => hx b (by simp [hb]))]

theorem dropWhile_append_of_sat {α : Type _} (p : α → Bool) (xs : List α) (y : α)
    (zs : List α) (hx : ∀ a ∈ xs, p a = true) (hy : p y = false) :
    (xs ++ y :: zs).dropWhile p = y :: zs := by
  induction xs with
  | nil => simp [List.dropWhile, hy]
  | cons a l ih =>
    have ha : p a = true := hx a (by simp)
    simp only [List.cons_append, List.dropWhile_cons, ha, if_true]
    exact ih (fun b hb => hx b (by simp [hb]))

theorem splitWsF_congr (fuel₁ : Nat) :
    ∀ (fuel₂ : Nat) (l : List Char), l.length ≤ fuel₁ → l.length ≤ fuel₂ →
    splitWsF fuel₁ l = splitWsF fuel₂ l := by
  induction fuel₁ with
  | zero =>
    intro fuel₂ l h1 _
    have hnil : l = [] := List.length_eq_zero.1 (by omega)
    subst hnil
    cases fuel₂ <;> rfl
  | succ f ih =>
    intro fuel₂ l h1 h2
    cases l with
    | nil => cases fuel₂ <;> rfl
    | cons c rest =>
      cases fuel₂ with
      | zero => simp at h2
      | succ f₂ =>
        have hdw : (rest.dropWhile (fun d => !d.isWhitespace)).length ≤ rest.length :=
          (List.dropWhile_sublist (p := fun d => !d.isWhitespace) (l := rest)).length_le
        rw [splitWsF, splitWsF]
        by_cases hws : c.isWhitespace
        · rw [if_pos hws, if_pos hws]
          exact ih f₂ rest (by simpa using h1) (by simpa using h2)
        · rw [if_neg hws, if_neg hws,
            ih f₂ (rest.dropWhile (fun d => !d.isWhitespace))
              (by simp at h1; omega) (by simp at h2; omega)]

theorem splitWs_nil : splitWs [] = [] := rfl

theorem splitWs_cons (c : Char) (rest : List Char) :
    splitWs (c :: rest) =
      if c.isWhitespace then splitWs rest
      else (c :: rest.takeWhile (fun d => !d.isWhitespace)) ::
        splitWs (rest.dropWhile (fun d => !d.isWhitespace)) := by
  have hdw : (rest.dropWhile (fun d => !d.isWhitespace)).length ≤ rest.length :=
    (List.dropWhile_sublist (p := fun d => !d.isWhitespace) (l := rest)).length_le
  show splitWsF (rest.length + 1) (c :: rest) = _
  rw [splitWsF]
  by_cases hws : c.isWhitespace
  · rw [if_pos hws, if_pos hws]
    rfl
  · rw [if_neg hws, if_neg hws,
      splitWsF_congr rest.length (rest.dropWhile (fun d => !d.isWhitespace)).length
        (rest.dropWhile (fun d => !d.isWhitespace)) hdw (le_refl _)]
    rfl

theorem splitWs_words_ok (l : List Char) :
    ∀ w ∈ splitWs l, w ≠ [] ∧ ∀ c ∈ w, c.isWhitespace = false := by
  suffices h : ∀ fuel (m : List Char), m.length ≤ fuel →
      ∀ w ∈ splitWs m, w ≠ [] ∧ ∀ c ∈ w, c.isWhitespace = false from
    h l.length l (le_refl _)
  intro fuel
  induction fuel with
  | zero =>
    intro m hm
    have : m = [] := List.length_eq_zero.1 (by omega)
    subst this
    simp [splitWs_nil]
  | succ fuel ih =>
    intro m hm
    cases m with
    | nil => simp [splitWs_nil]
    | cons c rest =>
      rw [splitWs_cons]
      by_cases hws : c.isWhitespace
      · rw [if_pos hws]
        exact ih rest (by simpa using hm)
      · rw [if_neg hws]
        intro w hw
        rcases List.mem_cons.1 hw with hw | hw
        · subst hw
          refine ⟨by simp, ?_⟩
          intro d hd
          rcases List.mem_cons.1 hd with hd | hd
          · subst hd
            simpa using hws
          · have := List.mem_takeWhile_imp hd
            simpa using this
        · have hdw : (rest.dropWhile (fun d => !d.isWhitespace)).length ≤ rest.length :=
            (List.dropWhile_sublist (p := fun d => !d.isWhitespace) (l := rest)).length_le
          exact ih (rest.dropWhile (fun d => !d.isWhitespace)) (by simp at hm; omega) w hw

theorem splitWs_eq_nil_iff (l : List Char) :
    splitWs l = [] ↔ ∀ c ∈ l, c.isWhitespace = true := by
  suffices h : ∀ fuel (m : List Char), m.length ≤ fuel →
      (splitWs m = [] ↔ ∀ c ∈ m, c.isWhitespace = true) from
    h l.length l (le_refl _)
  intro fuel
  induction fuel with
  | zero =>
    intro m hm
    have : m = [] := List.length_eq_zero.1 (by omega)
    subst this
    simp [splitWs_nil]
  | succ fuel ih =>
    intro m hm
    cases m with
    | nil => simp [splitWs_nil]
    | cons c rest =>
      rw [splitWs_cons]
      by_cases hws : c.isWhitespace
      · rw [if_pos hws]
        have := ih rest (by simpa using hm)
        simp only [List.mem_cons]
        constructor
        · intro h d hd
          rcases hd with hd | hd
          · subst hd
            exact hws
          · exact this.1 h d hd
        · intro h
          exact this.2 (fun d hd => h d (Or.inr hd))
      · rw [if_neg hws]
        simp only [List.cons_ne_nil, false_iff, not_forall]
        refine ⟨c, by simp, ?_⟩
        simpa using hws

theorem pyStrip_eq_nil_iff (l : List Char) :
    pyStrip l = [] ↔ ∀ c ∈ l, c.isWhitespace = true := by
  unfold pyStrip
  rw [List.reverse_eq_nil_iff, List.dropWhile_eq_nil_iff]
  constructor
  · intro h c hc
    by_cases hcw : c.isWhitespace = true
    · exact hcw
    · -- c survives the first dropWhile, hence appears in the reversed list
      have hmem : c ∈ l.dropWhile Char.isWhitespace := by
        by_contra hnmem
        have hsplit := List.takeWhile_append_dropWhile Char.isWhitespace l
        have : c ∈ l.takeWhile Char.isWhitespace ++ l.dropWhile Char.isWhitespace := by
          rw [hsplit]; exact hc
        rcases List.mem_append.1 this with h1 | h1
        · exact hcw (List.mem_takeWhile_imp h1)
        · exact hnmem h1
      have := h c (by simpa using hmem)
      exact this
  · intro h c hc
    exact h c (List.dropWhile_subset _ (by simpa using hc))

theorem splitWs_joinSpace (ws : List (List Char))
    (h : ∀ w ∈ ws, w ≠ [] ∧ ∀ c ∈ w, c.isWhitespace = false) :
    splitWs (joinSpace ws) = ws := by
  induction ws with
  | nil => simp [joinSpace, splitWs_nil]
  | cons w tail ih =>
    obtain ⟨hw, hwc⟩ := h w (by simp)
    obtain ⟨c, w', rfl⟩ : ∃ c w', w = c :: w' := by
      cases w with
      | nil => exact absurd rfl hw
      | cons c w' => exact ⟨c, w', rfl⟩
    have hc : c.isWhitespace = false := hwc c (by simp)
    have hw' : ∀ d ∈ w', d.isWhitespace = false := fun d hd => hwc d (by simp [hd])
    cases tail with
    | nil =>
      show splitWs (c :: w') = [c :: w']
      rw [splitWs_cons, if_neg (by simp [hc])]
      have ht : w'.takeWhile (fun d => !d.isWhitespace) = w' :=
        List.takeWhile_eq_self_iff.2 (fun d hd => by simp [hw' d hd])
      have hd : w'.dropWhile (fun d => !d.isWhitespace) = [] :=
        List.dropWhile_eq_nil_iff.2 (fun d hd => by simp [hw' d hd])
      rw [ht, hd]
      simp [splitWs_nil]
    | cons w2 t2 =>
      show splitWs ((c :: w') ++ ' ' :: joinSpace (w2 :: t2)) = (c :: w') :: w2 :: t2
      rw [List.cons_append, splitWs_cons, if_neg (by simp [hc])]
      have ht : (w' ++ ' ' :: joinSpace (w2 :: t2)).takeWhile
          (fun d => !d.isWhitespace) = w' :=
        takeWhile_append_of_sat _ _ _ _ (fun d hd => by simp [hw' d hd]) (by simp)
      have hd : (w' ++ ' ' :: joinSpace (w2 :: t2)).dropWhile
          (fun d => !d.isWhitespace) = ' ' :: joinSpace (w2 :: t2) :=
        dropWhile_append_of_sat _ _ _ _ (fun d hd => by simp [hw' d hd]) (by simp)
      rw [ht, hd]
      have : splitWs (' ' :: joinSpace (w2 :: t2)) = splitWs (joinSpace (w2 :: t2)) := by
        rw [splitWs_cons, if_pos (by simp)]
      rw [this, ih (fun x hx => h x (by simp [hx]))]

/-! ### Helper lemmas about the sliding-window loop -/

theorem ceil_cnt_step (stride d : Nat) (hs : 1 ≤ stride) (hd : 1 ≤ d) :
    (d + stride - 1) / stride = (d - stride + stride - 1) / stride + 1 := by
  rcases le_or_lt stride d with h | h
  · have h1 : d - stride + stride - 1 = d - 1 := by omega
    rw [h1]
    have h2 : d + stride - 1 = (d - 1) + stride := by omega
    rw [h2, Nat.add_div_right _ (by omega)]
  · have h1 : d - stride = 0 := by omega
    rw [h1]
    have h2 : (0 + stride - 1) / stride = 0 := Nat.div_eq_of_lt (by omega)
    rw [h2]
    exact Nat.div_eq_of_lt_le (by omega) (by omega)

theorem ceil_mul_ge (a b : Nat) (hb : 1 ≤ b) : a ≤ ((a + b - 1) / b) * b := by
  have h := Nat.div_add_mod (a + b - 1) b
  have h2 : (a + b - 1) % b < b := Nat.mod_lt _ (by omega)
  rw [Nat.mul_comm]
  omega

theorem chunkAt_end_word (cs : Nat) (words pts : List (List Char)) (fn : List Char)
    (s idx : Nat) :
    (chunkAt cs words pts fn s idx).end_word = min (s + cs) words.length := rfl

theorem chunkLoop_eq (cs stride : Nat) (words pts : List (List Char)) (fn : List Char)
    (hs : 1 ≤ stride) (hsc : stride ≤ cs) :
    ∀ fuel i idx, i < words.length → words.length ≤ i + fuel * stride →
    chunkLoop cs stride words pts fn fuel i idx =
      (List.range ((words.length - cs - i + stride - 1) / stride + 1)).map
        (fun j => chunkAt cs words pts fn (i + j * stride) (idx + j)) := by
  intro fuel
  induction fuel with
  | zero => intro i idx hi hf; omega
  | succ fuel ih =>
    intro i idx hi hf
    show (if i < words.length then
        let c := chunkAt cs words pts fn i idx
        if words.length ≤ c.end_word then [c]
        else c :: chunkLoop cs stride words pts fn fuel (i + stride) (idx + 1)
      else []) = _
    rw [if_pos hi]
    simp only [chunkAt_end_word]
    rcases le_or_lt words.length (i + cs) with hend | hend
    · rw [if_pos (by omega)]
      have h0 : words.length - cs - i = 0 := by omega
      have h1 : words.length - cs - i + stride - 1 < stride := by omega
      rw [h0] at h1 ⊢
      rw [Nat.div_eq_of_lt h1]
      rw [show (0 + 1 : Nat) = 1 from rfl, List.range_succ, List.range_zero]
      simp
    · rw [if_neg (by omega)]
      have hrec := ih (i + stride) (idx + 1) (by omega)
        (by rw [Nat.succ_mul] at hf; omega)
      have hd : 1 ≤ words.length - cs - i := by omega
      have hcnt : (words.length - cs - i + stride - 1) / stride + 1 =
          ((words.length - cs - (i + stride) + stride - 1) / stride + 1) + 1 := by
        have h3 : words.length - cs - (i + stride) = (words.length - cs - i) - stride := by omega
        rw [h3, ceil_cnt_step stride (words.length - cs - i) hs hd]
      conv_rhs => rw [hcnt, List.range_succ_eq_map, List.map_cons, List.map_map]
      congr 1
      · simp
      rw [hrec]
      apply List.map_congr_left
      intro j _
      have ha : i + Nat.succ j * stride = i + stride + j * stride := by
        rw [Nat.succ_mul]; omega
      have hb : idx + Nat.succ j = idx + 1 + j := by omega
      simp only [Function.comp_apply, ha, hb]

theorem chunk_text_eq (cs ov : Nat) (text fn : List Char) (pts : List (List Char))
    (hov : ov < cs) (hN : cs ≤ (splitWs text).length) :
    chunk_text cs ov text fn pts =
      (List.range (((splitWs text).length - cs + (cs - ov) - 1) / (cs - ov) + 1)).map
        (fun j => chunkAt cs (splitWs text) pts fn (j * (cs - ov)) j) := by
  have hstrip : pyStrip text ≠ [] := by
    intro h
    have hall := (pyStrip_eq_nil_iff text).1 h
    have hnil : splitWs text = [] := (splitWs_eq_nil_iff text).2 hall
    rw [hnil] at hN
    simp at hN
    omega
  unfold chunk_text
  rw [if_neg hstrip, if_neg (by omega)]
  have hfuel : (splitWs text).length ≤ 0 + (splitWs text).length * (cs - ov) :=
    by
      have := Nat.le_mul_of_pos_right (splitWs text).length (show 0 < cs - ov by omega)
      omega
  rw [chunkLoop_eq cs (cs - ov) (splitWs text) pts fn (by omega) (by omega)
    ((splitWs text).length) 0 0 (by omega) hfuel]
  have hsub : (splitWs text).length - cs - 0 = (splitWs text).length - cs := rfl
  rw [hsub]
  apply List.map_congr_left
  intro j _
  simp

/-! ### Helper lemmas about page lookup -/

theorem findPageAux_spec (counts : List Nat) :
    ∀ pos i cum tp, cum ≤ pos → pos - cum < counts.sum →
    ∃ j, j < counts.length ∧ findPageAux counts pos i cum tp = i + j + 1 ∧
      (counts.take j).sum ≤ pos - cum ∧ pos - cum < (counts.take (j + 1)).sum := by
  induction counts with
  | nil =>
    intro pos i cum tp h1 h2
    simp at h2
  | cons c rest ih =>
    intro pos i cum tp h1 h2
    rw [findPageAux]
    by_cases hc : pos < cum + c
    · refine ⟨0, by simp, by rw [if_pos hc], by simp, ?_⟩
      simp
      omega
    · rw [if_neg hc]
      push_neg at hc
      have h2' : pos - (cum + c) < rest.sum := by
        simp [List.sum_cons] at h2
        omega
      obtain ⟨j, hj1, hj2, hj3, hj4⟩ := ih pos (i + 1) (cum + c) tp hc h2'
      refine ⟨j + 1, by simp [hj1], by rw [hj2]; omega, ?_, ?_⟩
      · simp [List.sum_cons]
        omega
      · simp [List.sum_cons]
        omega

theorem findPage_spec (counts : List Nat) (pos tp : Nat) (h : pos < counts.sum) :
    ∃ j, j < counts.length ∧ findPage counts pos tp = j + 1 ∧
      (counts.take j).sum ≤ pos ∧ pos < (counts.take (j + 1)).sum := by
  have := findPageAux_spec counts pos 0 0 tp (by omega) (by simpa using h)
  simpa [findPage] using this

/-! ### Helper lemmas about the greedy packing loop -/

theorem entryTokens_cons (c : PChunk) (rest : List PChunk) (idx : Nat) :
    entryTokens (c :: rest) idx =
      estimateTokens (renderEntry idx c) :: entryTokens rest (idx + 1) := by
  simp [entryTokens, List.enumFrom_cons]

theorem packLoop_spec (budget : Nat) :
    ∀ (l : List PChunk) (idx toks : Nat),
    ∃ k, k ≤ l.length ∧
      (packLoop budget l idx toks).2 = l.take k ∧
      (packLoop budget l idx toks).1 =
        (List.enumFrom idx (l.take k)).map (fun p => renderEntry p.1 p.2) ∧
      (∀ j < k, toks + ((entryTokens l idx).take (j + 1)).sum ≤ budget) ∧
      (k < l.length → budget < toks + ((entryTokens l idx).take (k + 1)).sum) := by
  intro l
  induction l with
  | nil =>
    intro idx toks
    exact ⟨0, by simp, by simp [packLoop], by simp [packLoop], by omega, by simp⟩
  | cons c rest ih =>
    intro idx toks
    by_cases hb : budget < toks + estimateTokens (renderEntry idx c)
    · refine ⟨0, by simp, by simp [packLoop, hb], by simp [packLoop, hb], by omega, ?_⟩
      intro _
      rw [entryTokens_cons]
      simpa using hb
    · obtain ⟨k, hk1, hk2, hk3, hk4, hk5⟩ := ih (idx + 1) (toks + estimateTokens (renderEntry idx c))
      refine ⟨k + 1, by simpa using hk1, ?_, ?_, ?_, ?_⟩
      · simp [packLoop, hb, hk2]
      · simp [packLoop, hb, hk3, List.enumFrom_cons]
      · intro j hj
        cases j with
        | zero =>
          rw [entryTokens_cons]
          simp
          omega
        | succ j' =>
          rw [entryTokens_cons]
          simp only [List.take_succ_cons, List.sum_cons]
          have := hk4 j' (by omega)
          omega
      · intro hlt
        rw [entryTokens_cons]
        simp only [List.take_succ_cons, List.sum_cons]
        have := hk5 (by simpa using Nat.lt_of_succ_lt_succ (by simpa using hlt))
        omega

/-! ### Helper lemmas about the stable descending sort -/

theorem mem_insertDesc (c x : PChunk) (l : List PChunk) :
    x ∈ insertDesc c l ↔ x = c ∨ x ∈ l := by
  induction l with
  | nil => simp [insertDesc]
  | cons d ds ih =>
    rw [insertDesc]
    by_cases h : c.score < d.score
    · rw [if_pos h]
      simp only [List.mem_cons, ih]
      tauto
    · rw [if_neg h]
      simp only [List.mem_cons]

theorem insertDesc_pairwise (c : PChunk) (l : List PChunk)
    (h : List.Pairwise (fun a b => b.score ≤ a.score) l) :
    List.Pairwise (fun a b => b.score ≤ a.score) (insertDesc c l) := by
  induction l with
  | nil => simp [insertDesc]
  | cons d ds ih =>
    rw [List.pairwise_cons] at h
    obtain ⟨hd, hds⟩ := h
    rw [insertDesc]
    by_cases hc : c.score < d.score
    · rw [if_pos hc]
      rw [List.pairwise_cons]
      refine ⟨?_, ih hds⟩
      intro x hx
      rcases (mem_insertDesc c x ds).1 hx with rfl | hx
      · exact le_of_lt hc
      · exact hd x hx
    · rw [if_neg hc]
      push_neg at hc
      rw [List.pairwise_cons]
      refine ⟨?_, List.pairwise_cons.2 ⟨hd, hds⟩⟩
      intro x hx
      rcases List.mem_cons.1 hx with rfl | hx
      · exact hc
      · exact le_trans (hd x hx) hc

theorem sortDesc_pairwise (l : List PChunk) :
    List.Pairwise (fun a b => b.score ≤ a.score) (sortDesc l) := by
  induction l with
  | nil => simp [sortDesc]
  | cons c cs ih =>
    rw [sortDesc]
    exact insertDesc_pairwise c _ ih

theorem filter_insertDesc (q : ℚ) (c : PChunk) (l : List PChunk) :
    (insertDesc c l).filter (fun x => decide (x.score = q)) =
      if c.score = q then c :: l.filter (fun x => decide (x.score = q))
      else l.filter (fun x => decide (x.score = q)) := by
  induction l with
  | nil =>
    by_cases h : c.score = q <;> simp [insertDesc, List.filter_cons, h]
  | cons d ds ih =>
    rw [insertDesc]
    by_cases hcd : c.score < d.score
    · rw [if_pos hcd]
      rw [List.filter_cons, ih]
      by_cases hdq : d.score = q
      · have hcq : ¬ (c.score = q) := by
          intro h
          rw [h, ← hdq] at hcd
          exact lt_irrefl _ (by exact_mod_cast hcd)
        simp [hdq, hcq, List.filter_cons]
      · by_cases hcq : c.score = q <;> simp [hdq, hcq, List.filter_cons]
    · rw [if_neg hcd]
      rw [List.filter_cons, List.filter_cons]
      by_cases hcq : c.score = q <;> by_cases hdq : d.score = q <;>
        simp [hcq, hdq, List.filter_cons]

theorem filter_sortDesc (q : ℚ) (l : List PChunk) :
    (sortDesc l).filter (fun x => decide (x.score = q)) =
      l.filter (fun x => decide (x.score = q)) := by
  induction l with
  | nil => rfl
  | cons c cs ih =>
    rw [sortDesc, filter_insertDesc, List.filter_cons]
    by_cases h : c.score = q <;> simp [h, ih]

theorem insertDesc_perm (c : PChunk) (l : List PChunk) :
    List.Perm (insertDesc c l) (c :: l) := by
  induction l with
  | nil => simp [insertDesc]
  | cons d ds ih =>
    rw [insertDesc]
    by_cases h : c.score < d.score
    · rw [if_pos h]
      exact (List.Perm.cons d ih).trans (List.Perm.swap c d ds)
    · rw [if_neg h]

theorem sortDesc_perm (l : List PChunk) : List.Perm (sortDesc l) l := by
  induction l with
  | nil => exact List.Perm.refl _
  | cons c cs ih =>
    rw [sortDesc]
    exact (insertDesc_perm c _).trans (List.Perm.cons c ih)

/-! ### Helper lemmas about line joining and the retry loop -/

theorem mem_joinNl_data (s : String) (ls : List String) (h : s ∈ ls) :
    s.data <:+: (joinNl ls).data := by
  induction ls with
  | nil => simp at h
  | cons l rest ih =>
    cases rest with
    | nil =>
      simp at h
      subst h
      exact ⟨[], [], by simp [joinNl]⟩
    | cons l2 rest2 =>
      rcases List.mem_cons.1 h with rfl | h2
      · refine ⟨[], ("\n" ++ joinNl (l2 :: rest2)).data, ?_⟩
        simp [joinNl, String.data_append]
      · obtain ⟨u, v, huv⟩ := ih h2
        refine ⟨(l ++ "\n").data ++ u, v, ?_⟩
        simp only [joinNl, String.data_append, List.append_assoc]
        rw [← List.append_assoc u, huv]

theorem genRun_all_fail (gen : Nat → Except String String) :
    ∀ (l : List Nat) (last : Option String), (∀ a ∈ l, ∃ e, gen a = .error e) →
    (genRun gen l last).1.answer = "" ∧ (genRun gen l last).1.meta_error = true ∧
    (genRun gen l last).2 = l.dropLast.map backoffDelay := by
  intro l
  induction l with
  | nil =>
    intro last _
    simp [genRun, failResult]
  | cons a rest ih =>
    intro last h
    obtain ⟨e, he⟩ := h a (by simp)
    by_cases hr : rest = []
    · subst hr
      simp [genRun, he, failResult]
    · obtain ⟨h1, h2, h3⟩ := ih (some e) (fun b hb => h b (by simp [hb]))
      simp [genRun, he, hr, h1, h2, h3, List.dropLast_cons_of_ne_nil hr]

theorem genRun_first_ok (gen : Nat → Except String String) (a₀ : Nat) (ans : String)
    (hok : gen a₀ = .ok ans) :
    ∀ (pre : List Nat) (post : List Nat) (last : Option String),
    (∀ a ∈ pre, ∃ e, gen a = .error e) →
    (genRun gen (pre ++ a₀ :: post) last).1 = okResult ans := by
  intro pre
  induction pre with
  | nil =>
    intro post last _
    simp [genRun, hok]
  | cons p pre' ih =>
    intro post last h
    obtain ⟨e, he⟩ := h p (by simp)
    have hne : pre' ++ a₀ :: post ≠ [] := by simp
    simp [genRun, he, hne, ih post (some e) (fun b hb => h b (by simp [hb]))]

theorem searchLoop_eq_filterMap (l : List (ℚ × Int)) (db : List DBChunk) :
    searchLoop l db = l.filterMap (fun p =>
      if p.2 < 0 then none else (db.get? p.2.toNat).map (mkRecord p.1)) := by
  induction l with
  | nil => simp [searchLoop]
  | cons p rest ih =>
    obtain ⟨score, idx⟩ := p
    by_cases hneg : idx < 0
    · simp [searchLoop, hneg, ih, List.filterMap_cons]
    · cases hdb : db[idx.toNat]? with
      | none => simp [searchLoop, hneg, hdb, ih, List.filterMap_cons]
      | some ch => simp [searchLoop, hneg, hdb, ih, List.filterMap_cons]

/-! ### Claim theorems -/

/-- C1: for a text of `N ≥ chunk_size` whitespace-split words and a
configuration with `stride = chunk_size - chunk_overlap ≥ 1`, `chunk_text`
produces exactly `ceil((N - chunk_size) / stride) + 1` chunks (stated in
the natural-number form `(N - chunk_size + stride - 1) / stride + 1`, and
equal to `_calculate_num_chunks`); the j-th chunk starts at word
`j * stride` and ends at `min(j * stride + chunk_size, N)`; the last
chunk's `end_word` is `N`. -/
theorem chunk_text_window_layout (cs ov : Nat) (text fn : List Char)
    (pts : List (List Char)) (hov : ov < cs)
    (hN : cs ≤ (splitWs text).length) :
    (chunk_text cs ov text fn pts).length =
      ((splitWs text).length - cs + (cs - ov) - 1) / (cs - ov) + 1 ∧
    (chunk_text cs ov text fn pts).length =
      calculate_num_chunks cs ov (splitWs text).length ∧
    (∀ j (hj : j < (chunk_text cs ov text fn pts).length),
      ((chunk_text cs ov text fn pts).get ⟨j, hj⟩).start_word = j * (cs - ov) ∧
      ((chunk_text cs ov text fn pts).get ⟨j, hj⟩).end_word =
        min (j * (cs - ov) + cs) (splitWs text).length) ∧
    (∃ c, (chunk_text cs ov text fn pts).getLast? = some c ∧
      c.end_word = (splitWs text).length) := by
  have he := chunk_text_eq cs ov text fn pts hov hN
  have hlen : (chunk_text cs ov text fn pts).length =
      ((splitWs text).length - cs + (cs - ov) - 1) / (cs - ov) + 1 := by
    rw [he]
    simp
  refine ⟨hlen, ?_, ?_, ?_⟩
  · rw [hlen]
    unfold calculate_num_chunks
    rw [if_neg (by omega)]
  · intro j hj
    rw [hlen] at hj
    have hget : (chunk_text cs ov text fn pts).get ⟨j, by rw [hlen]; exact hj⟩ =
        chunkAt cs (splitWs text) pts fn (j * (cs - ov)) j := by
      simp only [he, List.get_eq_getElem, List.getElem_map, List.getElem_range]
    constructor
    · rw [hget]
      rfl
    · rw [hget]
      rfl
  · rw [he]
    set N := (splitWs text).length with hNdef
    set stride := cs - ov with hsdef
    set q := (N - cs + stride - 1) / stride with hqdef
    refine ⟨chunkAt cs (splitWs text) pts fn (q * stride) q, ?_, ?_⟩
    · rw [List.getLast?_eq_getElem?]
      simp
    · have hm : N - cs ≤ q * stride := ceil_mul_ge (N - cs) stride (by omega)
      have : N ≤ q * stride + cs := by omega
      show min (q * stride + cs) N = N
      omega

/-- C1 witness: the spec scenario `chunk_size=5, chunk_overlap=2` over a
12-word text yields `ceil((12-5)/3)+1 = 4` chunks. -/
theorem chunk_text_window_layout_witness :
    2 < 5 ∧
    5 ≤ (splitWs ("w0 w1 w2 w3 w4 w5 w6 w7 w8 w9 w10 w11".data)).length ∧
    (chunk_text 5 2 ("w0 w1 w2 w3 w4 w5 w6 w7 w8 w9 w10 w11".data) [] []).length = 4 := by
  refine ⟨by decide, by decide, ?_⟩
  have h := chunk_text_window_layout 5 2
    ("w0 w1 w2 w3 w4 w5 w6 w7 w8 w9 w10 w11".data) [] [] (by decide) (by decide)
  rw [h.1]
  decide

/-- C2: for any chunk list produced by `chunk_text` with `stride ≥ 1`, and
any adjacent pair of chunks each holding at least `chunk_overlap` words,
the trailing `chunk_overlap` words of the earlier chunk's text
(whitespace-split) equal the leading `chunk_overlap` words of the later
chunk's text, word for word. -/
theorem chunk_text_overlap (cs ov : Nat) (text fn : List Char)
    (pts : List (List Char)) (hov : ov < cs) (i : Nat)
    (h1 : i + 1 < (chunk_text cs ov text fn pts).length)
    (ha : ov ≤ (splitWs ((chunk_text cs ov text fn pts).get
      ⟨i, Nat.lt_of_succ_lt h1⟩).text).length)
    (hb : ov ≤ (splitWs ((chunk_text cs ov text fn pts).get ⟨i + 1, h1⟩).text).length) :
    (splitWs ((chunk_text cs ov text fn pts).get ⟨i, Nat.lt_of_succ_lt h1⟩).text).drop
      ((splitWs ((chunk_text cs ov text fn pts).get
        ⟨i, Nat.lt_of_succ_lt h1⟩).text).length - ov) =
    (splitWs ((chunk_text cs ov text fn pts).get ⟨i + 1, h1⟩).text).take ov := by
  have hN : cs ≤ (splitWs text).length := by
    by_contra hlt
    push_neg at hlt
    have h2 : (chunk_text cs ov text fn pts).length ≤ 1 := by
      unfold chunk_text
      by_cases hstrip : pyStrip text = []
      · rw [if_pos hstrip]
        simp
      · rw [if_neg hstrip, if_pos hlt]
        simp
    omega
  have he := chunk_text_eq cs ov text fn pts hov hN
  have hstride : 1 ≤ cs - ov := by omega
  have hlen : (chunk_text cs ov text fn pts).length =
      ((splitWs text).length - cs + (cs - ov) - 1) / (cs - ov) + 1 := by
    rw [he]
    simp
  have hiK : i + 1 < ((splitWs text).length - cs + (cs - ov) - 1) / (cs - ov) + 1 := by
    rw [hlen] at h1
    exact h1
  -- chunk i is not the last, so its window has full height cs
  have hfull : i * (cs - ov) + cs < (splitWs text).length := by
    have hq1 : i + 1 ≤ ((splitWs text).length - cs + (cs - ov) - 1) / (cs - ov) := by omega
    have h2 : (i + 1) * (cs - ov) ≤
        (((splitWs text).length - cs + (cs - ov) - 1) / (cs - ov)) * (cs - ov) :=
      Nat.mul_le_mul_right _ hq1
    have h3 : (((splitWs text).length - cs + (cs - ov) - 1) / (cs - ov)) * (cs - ov) ≤
        (splitWs text).length - cs + (cs - ov) - 1 := Nat.div_mul_le_self _ _
    have h4 : (i + 1) * (cs - ov) = i * (cs - ov) + (cs - ov) := by rw [Nat.succ_mul]
    omega
  simp only [he, List.get_eq_getElem, List.getElem_map, List.getElem_range] at ha hb ⊢
  simp only [chunkAt] at ha hb ⊢
  -- the words of each chunk are a slice of the document words
  have hsplit : ∀ s t, splitWs (joinSpace (((splitWs text).drop s).take t)) =
      ((splitWs text).drop s).take t := by
    intro s t
    refine splitWs_joinSpace _ ?_
    intro w hw
    exact splitWs_words_ok text w (List.drop_subset _ _ (List.take_subset _ _ hw))
  simp only [hsplit] at ha hb ⊢
  -- window bounds for chunk i and chunk i+1
  have hei : min (i * (cs - ov) + cs) (splitWs text).length = i * (cs - ov) + cs :=
    Nat.min_eq_left (le_of_lt hfull)
  rw [hei] at ha ⊢
  have htake_i : i * (cs - ov) + cs - i * (cs - ov) = cs := by omega
  rw [htake_i] at ha ⊢
  have hlen_i : (((splitWs text).drop (i * (cs - ov))).take cs).length = cs := by
    rw [List.length_take, List.length_drop]
    omega
  rw [hlen_i]
  -- trailing ov words of chunk i
  rw [List.drop_take, List.drop_drop]
  have hov' : cs - (cs - ov) = ov := by omega
  rw [hov']
  -- leading ov words of chunk i+1
  have hlen_b : (((splitWs text).drop ((i + 1) * (cs - ov))).take
      (min ((i + 1) * (cs - ov) + cs) (splitWs text).length - (i + 1) * (cs - ov))).length =
      min ((i + 1) * (cs - ov) + cs) (splitWs text).length - (i + 1) * (cs - ov) := by
    rw [List.length_take, List.length_drop]
    have : min ((i + 1) * (cs - ov) + cs) (splitWs text).length ≤ (splitWs text).length :=
      Nat.min_le_right _ _
    omega
  rw [hlen_b] at hb
  rw [List.take_take, Nat.min_eq_left hb]
  have hs' : i * (cs - ov) + (cs - ov) = (i + 1) * (cs - ov) := by
    rw [Nat.succ_mul]
  rw [hs']

/-- C2 witness: with `chunk_size=5, chunk_overlap=2` over 12 words, the
trailing 2 words of chunk 0 equal the leading 2 words of chunk 1. -/
theorem chunk_text_overlap_witness :
    2 < 5 ∧
    (1 : Nat) < (chunk_text 5 2 "w0 w1 w2 w3 w4 w5 w6 w7 w8 w9 w10 w11".data [] []).length ∧
    (splitWs ((chunk_text 5 2 "w0 w1 w2 w3 w4 w5 w6 w7 w8 w9 w10 w11".data [] []).get
      ⟨0, by decide⟩).text).drop
      ((splitWs ((chunk_text 5 2 "w0 w1 w2 w3 w4 w5 w6 w7 w8 w9 w10 w11".data [] []).get
        ⟨0, by decide⟩).text).length - 2) =
    (splitWs ((chunk_text 5 2 "w0 w1 w2 w3 w4 w5 w6 w7 w8 w9 w10 w11".data [] []).get
      ⟨1, by decide⟩).text).take 2 := by
  refine ⟨by decide, by decide, ?_⟩
  exact chunk_text_overlap 5 2 "w0 w1 w2 w3 w4 w5 w6 w7 w8 w9 w10 w11".data [] []
    (by decide) 0 (by decide) (by decide) (by decide)

/-- C8: chunking an empty or whitespace-only text returns an empty
sequence. -/
theorem chunk_text_whitespace_empty (cs ov : Nat) (text fn : List Char)
    (pts : List (List Char)) (h : ∀ c ∈ text, c.isWhitespace = true) :
    chunk_text cs ov text fn pts = [] := by
  unfold chunk_text
  rw [if_pos ((pyStrip_eq_nil_iff text).2 h)]

/-- C8 witness: `chunk("") == []` and `chunk("   ") == []` with the default
configuration `chunk_size=500, chunk_overlap=100`. -/
theorem chunk_text_whitespace_empty_witness :
    (∀ c ∈ ("".data : List Char), c.isWhitespace = true) ∧
    (∀ c ∈ ("   ".data : List Char), c.isWhitespace = true) ∧
    chunk_text 500 100 "".data [] [] = [] ∧
    chunk_text 500 100 "   ".data [] [] = [] :=
  ⟨by decide, by decide,
   chunk_text_whitespace_empty 500 100 "".data [] [] (by decide),
   chunk_text_whitespace_empty 500 100 "   ".data [] [] (by decide)⟩

/-- C10: a text with at least one word but fewer words than `chunk_size`
yields a single chunk with `page_start = page_end = 1`, for any supplied
`page_texts` — page-range estimation is not applied on the short path. -/
theorem chunk_text_short_single (cs ov : Nat) (text fn : List Char)
    (pts : List (List Char)) (hne : splitWs text ≠ [])
    (hshort : (splitWs text).length < cs) :
    chunk_text cs ov text fn pts =
      [{ chunk_index := 0, start_word := 0, end_word := (splitWs text).length,
         page_start := 1, page_end := 1, text := pyStrip text,
         source_filename := fn, word_count := (splitWs text).length }] := by
  have hstrip : pyStrip text ≠ [] := fun h =>
    hne ((splitWs_eq_nil_iff text).2 ((pyStrip_eq_nil_iff text).1 h))
  unfold chunk_text
  rw [if_neg hstrip, if_pos hshort]

/-- C10 witness: a two-word text with a non-empty `page_texts` still gets
pages `(1, 1)`. -/
theorem chunk_text_short_single_witness :
    splitWs "w0 w1".data ≠ [] ∧
    (splitWs "w0 w1".data).length < 5 ∧
    chunk_text 5 2 "w0 w1".data "f".data ["pg1 a b".data, "pg2 c d".data] =
      [{ chunk_index := 0, start_word := 0, end_word := 2,
         page_start := 1, page_end := 1, text := "w0 w1".data,
         source_filename := "f".data, word_count := 2 }] := by
  refine ⟨by decide, by decide, ?_⟩
  have h := chunk_text_short_single 5 2 "w0 w1".data "f".data
    ["pg1 a b".data, "pg2 c d".data] (by decide) (by decide)
  rw [h]
  decide

/-- C4: with a non-empty `page_texts` carrying at least one word,
`_estimate_page_range` maps the span's start and end positions to the
1-based page whose cumulative word range contains them; with an absent or
empty `page_texts`, both pages default to 1. -/
theorem estimate_page_range_spec (s e tw : Nat) (pts : List (List Char)) :
    (pts = [] → estimate_page_range s e tw pts = (1, 1)) ∧
    (0 < (pts.map (fun p => (splitWs p).length)).sum →
      s < (pts.map (fun p => (splitWs p).length)).sum →
      ∃ j, j < pts.length ∧ (estimate_page_range s e tw pts).1 = j + 1 ∧
        ((pts.map (fun p => (splitWs p).length)).take j).sum ≤ s ∧
        s < ((pts.map (fun p => (splitWs p).length)).take (j + 1)).sum) ∧
    (0 < (pts.map (fun p => (splitWs p).length)).sum →
      e < (pts.map (fun p => (splitWs p).length)).sum →
      ∃ j, j < pts.length ∧ (estimate_page_range s e tw pts).2 = j + 1 ∧
        ((pts.map (fun p => (splitWs p).length)).take j).sum ≤ e ∧
        e < ((pts.map (fun p => (splitWs p).length)).take (j + 1)).sum) := by
  refine ⟨?_, ?_, ?_⟩
  · intro h
    subst h
    rfl
  · intro hsum hs
    have hne : pts ≠ [] := by
      intro h
      subst h
      simp at hsum
    have hunfold : estimate_page_range s e tw pts =
        (findPage (pts.map (fun p => (splitWs p).length)) s pts.length,
         findPage (pts.map (fun p => (splitWs p).length)) e pts.length) := by
      unfold estimate_page_range
      rw [if_neg hne, if_neg (by simpa using hne), if_neg (by omega)]
    rw [hunfold]
    obtain ⟨j, hj1, hj2, hj3, hj4⟩ :=
      findPage_spec (pts.map (fun p => (splitWs p).length)) s pts.length hs
    exact ⟨j, by simpa using hj1, hj2, hj3, hj4⟩
  · intro hsum he
    have hne : pts ≠ [] := by
      intro h
      subst h
      simp at hsum
    have hunfold : estimate_page_range s e tw pts =
        (findPage (pts.map (fun p => (splitWs p).length)) s pts.length,
         findPage (pts.map (fun p => (splitWs p).length)) e pts.length) := by
      unfold estimate_page_range
      rw [if_neg hne, if_neg (by simpa using hne), if_neg (by omega)]
    rw [hunfold]
    obtain ⟨j, hj1, hj2, hj3, hj4⟩ :=
      findPage_spec (pts.map (fun p => (splitWs p).length)) e pts.length he
    exact ⟨j, by simpa using hj1, hj2, hj3, hj4⟩

/-- C4 witness: two five-word pages; start position 3 lies on page 1 and
end position 8 lies on page 2. -/
theorem estimate_page_range_spec_witness :
    (0 < ((["a b c d e".data, "f g h i j".data].map
      (fun p => (splitWs p).length)).sum) ∧
     3 < ((["a b c d e".data, "f g h i j".data].map
      (fun p => (splitWs p).length)).sum)) ∧
    (∃ j, j < (["a b c d e".data, "f g h i j".data] : List (List Char)).length ∧
      (estimate_page_range 3 8 10 ["a b c d e".data, "f g h i j".data]).1 = j + 1 ∧
      ((["a b c d e".data, "f g h i j".data].map
        (fun p => (splitWs p).length)).take j).sum ≤ 3 ∧
      3 < ((["a b c d e".data, "f g h i j".data].map
        (fun p => (splitWs p).length)).take (j + 1)).sum) ∧
    (∃ j, j < (["a b c d e".data, "f g h i j".data] : List (List Char)).length ∧
      (estimate_page_range 3 8 10 ["a b c d e".data, "f g h i j".data]).2 = j + 1 ∧
      ((["a b c d e".data, "f g h i j".data].map
        (fun p => (splitWs p).length)).take j).sum ≤ 8 ∧
      8 < ((["a b c d e".data, "f g h i j".data].map
        (fun p => (splitWs p).length)).take (j + 1)).sum) :=
  ⟨⟨by decide, by decide⟩,
   (estimate_page_range_spec 3 8 10 ["a b c d e".data, "f g h i j".data]).2.1
     (by decide) (by decide),
   (estimate_page_range_spec 3 8 10 ["a b c d e".data, "f g h i j".data]).2.2
     (by decide) (by decide)⟩

/-- C7: `build_rag_prompt` on an empty retrieved-chunk list returns
`used_chunks = []` and a prompt containing the literal substring
`"Context:\n(none)"`, for every question and system text. -/
theorem build_rag_prompt_empty_placeholder (question : String) (sys : Option String)
    (mtt sm : Nat) :
    (build_rag_prompt [] question sys mtt sm).2 = [] ∧
    "Context:\n(none)".data <:+: (build_rag_prompt [] question sys mtt sm).1.data := by
  constructor
  · rfl
  · have h1 : "Context:\n(none)".data <:+: "\n\nContext:\n(none)\n\nQuestion: ".data := by
      decide
    obtain ⟨u, v, huv⟩ := h1
    refine ⟨(sys.getD RAG_SYSTEM_PROMPT).data ++ u,
      v ++ question.data ++ "\nAnswer:".data, ?_⟩
    have hpr : (build_rag_prompt [] question sys mtt sm).1 =
        (sys.getD RAG_SYSTEM_PROMPT) ++ "\n\nContext:\n(none)\n\nQuestion: "
          ++ question ++ "\nAnswer:" := rfl
    rw [hpr]
    simp only [String.data_append] at huv ⊢
    rw [← huv]
    simp [List.append_assoc]

/-- C5 counterexample: a chunk with `page_start = page_end = 3` is rendered
with the range form `p.3–3`, not the claimed single-page form `p.3` — the
prompt does not contain `"p.3, score="`. -/
theorem build_rag_prompt_single_page_range :
    ((build_rag_prompt [(⟨"T", "f.pdf", 3, 3, mkRat 1 2⟩ : PChunk)] "Q" (some "S") 2048 256).1 =
      "S\n\nContext:\n- [1] (f.pdf p.3–3, score=0.500)\nT\n\n\nQuestion: Q\nAnswer:") ∧
    ¬ ("p.3, score=".data <:+:
      (build_rag_prompt [(⟨"T", "f.pdf", 3, 3, mkRat 1 2⟩ : PChunk)] "Q" (some "S") 2048 256).1.data) := by
  constructor
  · decide
  · decide

/-- C5 (amended): every chunk rendered by `build_rag_prompt` appears in the
returned prompt as an enumerated, 1-based citation line with the source
filename, the page range always in the form `p.X–Y` (also when
`page_start = page_end`, rendered `p.X–X`), the score to three decimal
places, and the chunk's full text on the following line. -/
theorem build_rag_prompt_entry_rendering (chunks : List PChunk) (question : String)
    (sys : Option String) (mtt sm : Nat) (j : Nat)
    (hj : j < ((build_rag_prompt chunks question sys mtt sm).2).length) :
    ("- [" ++ toString (j + 1) ++ "] ("
      ++ ((build_rag_prompt chunks question sys mtt sm).2.get ⟨j, hj⟩).source_filename
      ++ " p."
      ++ toString ((build_rag_prompt chunks question sys mtt sm).2.get ⟨j, hj⟩).page_start
      ++ "–"
      ++ toString ((build_rag_prompt chunks question sys mtt sm).2.get ⟨j, hj⟩).page_end
      ++ ", score="
      ++ fmt3 ((build_rag_prompt chunks question sys mtt sm).2.get ⟨j, hj⟩).score
      ++ ")\n"
      ++ ((build_rag_prompt chunks question sys mtt sm).2.get ⟨j, hj⟩).text
      ++ "\n").data <:+:
    (build_rag_prompt chunks question sys mtt sm).1.data := by
  by_cases hnil : chunks = []
  · subst hnil
    simp [build_rag_prompt] at hj
  · have hused : (build_rag_prompt chunks question sys mtt sm).2 =
        (packLoop (mtt - sm) (sortDesc chunks) 1
          (estimateTokens (sys.getD RAG_SYSTEM_PROMPT) + estimateTokens "Question: "
            + estimateTokens question + 50)).2 := by
      simp [build_rag_prompt, hnil]
    have hprompt : (build_rag_prompt chunks question sys mtt sm).1 =
        joinNl (((sys.getD RAG_SYSTEM_PROMPT) ++ "\n\nContext:") ::
          (packLoop (mtt - sm) (sortDesc chunks) 1
            (estimateTokens (sys.getD RAG_SYSTEM_PROMPT) + estimateTokens "Question: "
              + estimateTokens question + 50)).1
          ++ ["\nQuestion: " ++ question ++ "\nAnswer:"]) := by
      simp [build_rag_prompt, hnil]
    obtain ⟨k, hk1, hk2, hk3, hk4, hk5⟩ := packLoop_spec (mtt - sm) (sortDesc chunks) 1
      (estimateTokens (sys.getD RAG_SYSTEM_PROMPT) + estimateTokens "Question: "
        + estimateTokens question + 50)
    have hjlen : j < ((sortDesc chunks).take k).length := by
      rw [hused, hk2] at hj
      exact hj
    have hentry : renderEntry (j + 1)
        ((build_rag_prompt chunks question sys mtt sm).2.get ⟨j, hj⟩) ∈
        (packLoop (mtt - sm) (sortDesc chunks) 1
          (estimateTokens (sys.getD RAG_SYSTEM_PROMPT) + estimateTokens "Question: "
            + estimateTokens question + 50)).1 := by
      rw [hk3]
      have hmem : (List.enumFrom 1 ((sortDesc chunks).take k)).get ⟨j, by simpa using hjlen⟩ ∈
          List.enumFrom 1 ((sortDesc chunks).take k) := List.getElem_mem _
      have hgetp : (List.enumFrom 1 ((sortDesc chunks).take k)).get ⟨j, by simpa using hjlen⟩ =
          (1 + j, ((sortDesc chunks).take k).get ⟨j, hjlen⟩) := by
        simp [List.getElem_enumFrom]
      have hgetc : (build_rag_prompt chunks question sys mtt sm).2.get ⟨j, hj⟩ =
          ((sortDesc chunks).take k).get ⟨j, hjlen⟩ := by
        simp only [List.get_eq_getElem]
        congr 1
        rw [hused, hk2]
      rw [hgetc, Nat.add_comm j 1]
      refine List.mem_map.2 ⟨(List.enumFrom 1 ((sortDesc chunks).take k)).get ⟨j, by simpa using hjlen⟩,
        hmem, ?_⟩
      rw [hgetp]
    have hline : renderEntry (j + 1)
        ((build_rag_prompt chunks question sys mtt sm).2.get ⟨j, hj⟩) ∈
        (((sys.getD RAG_SYSTEM_PROMPT) ++ "\n\nContext:") ::
          (packLoop (mtt - sm) (sortDesc chunks) 1
            (estimateTokens (sys.getD RAG_SYSTEM_PROMPT) + estimateTokens "Question: "
              + estimateTokens question + 50)).1
          ++ ["\nQuestion: " ++ question ++ "\nAnswer:"]) := by
      exact List.mem_cons_of_mem _ (List.mem_append_left _ hentry)
    have hinf := mem_joinNl_data _ _ hline
    rw [← hprompt] at hinf
    exact hinf

/-- C5 witness: the amended rendering theorem applied to a concrete
single-chunk prompt. -/
theorem build_rag_prompt_entry_rendering_witness :
    (0 : Nat) < ((build_rag_prompt [(⟨"T", "f.pdf", 3, 3, mkRat 1 2⟩ : PChunk)] "Q" (some "S") 2048 256).2).length ∧
    ("- [" ++ toString (0 + 1) ++ "] ("
      ++ (((build_rag_prompt [(⟨"T", "f.pdf", 3, 3, mkRat 1 2⟩ : PChunk)] "Q" (some "S") 2048 256).2).get
          ⟨0, by decide⟩).source_filename
      ++ " p."
      ++ toString ((((build_rag_prompt [(⟨"T", "f.pdf", 3, 3, mkRat 1 2⟩ : PChunk)] "Q" (some "S") 2048 256).2).get
          ⟨0, by decide⟩).page_start)
      ++ "–"
      ++ toString ((((build_rag_prompt [(⟨"T", "f.pdf", 3, 3, mkRat 1 2⟩ : PChunk)] "Q" (some "S") 2048 256).2).get
          ⟨0, by decide⟩).page_end)
      ++ ", score="
      ++ fmt3 ((((build_rag_prompt [(⟨"T", "f.pdf", 3, 3, mkRat 1 2⟩ : PChunk)] "Q" (some "S") 2048 256).2).get
          ⟨0, by decide⟩).score)
      ++ ")\n"
      ++ (((build_rag_prompt [(⟨"T", "f.pdf", 3, 3, mkRat 1 2⟩ : PChunk)] "Q" (some "S") 2048 256).2).get
          ⟨0, by decide⟩).text
      ++ "\n").data <:+:
    (build_rag_prompt [(⟨"T", "f.pdf", 3, 3, mkRat 1 2⟩ : PChunk)] "Q" (some "S") 2048 256).1.data :=
  ⟨by decide,
   build_rag_prompt_entry_rendering [(⟨"T", "f.pdf", 3, 3, mkRat 1 2⟩ : PChunk)] "Q" (some "S") 2048 256 0 (by decide)⟩

/-- C3: for every non-empty chunk list, `build_rag_prompt` ranks by
descending score with a stable sort (the ranked list is pairwise sorted by
descending score, preserves each score class in original order, and is a
permutation of the input), and `used_chunks` is exactly a greedy prefix of
the ranked list: every included entry kept the running token total within
`budget = max_total_tokens - safety_margin` (after the reserved estimates
for system text, the "Question: " label, the question and the constant
overhead of 50), and the first excluded entry would have pushed it over. -/
theorem build_rag_prompt_greedy (chunks : List PChunk) (question : String)
    (sys : Option String) (mtt sm : Nat) (hne : chunks ≠ []) :
    List.Pairwise (fun a b => b.score ≤ a.score) (sortDesc chunks) ∧
    (∀ q : ℚ, (sortDesc chunks).filter (fun c => decide (c.score = q)) =
      chunks.filter (fun c => decide (c.score = q))) ∧
    List.Perm (sortDesc chunks) chunks ∧
    (∃ k, k ≤ (sortDesc chunks).length ∧
      (build_rag_prompt chunks question sys mtt sm).2 = (sortDesc chunks).take k ∧
      (∀ j < k, estimateTokens (sys.getD RAG_SYSTEM_PROMPT) + estimateTokens "Question: "
          + estimateTokens question + 50
          + ((entryTokens (sortDesc chunks) 1).take (j + 1)).sum ≤ mtt - sm) ∧
      (k < (sortDesc chunks).length →
        mtt - sm < estimateTokens (sys.getD RAG_SYSTEM_PROMPT) + estimateTokens "Question: "
          + estimateTokens question + 50
          + ((entryTokens (sortDesc chunks) 1).take (k + 1)).sum)) := by
  refine ⟨sortDesc_pairwise chunks, fun q => filter_sortDesc q chunks,
    sortDesc_perm chunks, ?_⟩
  obtain ⟨k, hk1, hk2, hk3, hk4, hk5⟩ := packLoop_spec (mtt - sm) (sortDesc chunks) 1
    (estimateTokens (sys.getD RAG_SYSTEM_PROMPT) + estimateTokens "Question: "
      + estimateTokens question + 50)
  refine ⟨k, hk1, ?_, hk4, hk5⟩
  have hused : (build_rag_prompt chunks question sys mtt sm).2 =
      (packLoop (mtt - sm) (sortDesc chunks) 1
        (estimateTokens (sys.getD RAG_SYSTEM_PROMPT) + estimateTokens "Question: "
          + estimateTokens question + 50)).2 := by
    simp [build_rag_prompt, hne]
  rw [hused]
  exact hk2

/-- C3 witness: the greedy-packing theorem applied to a concrete singleton
chunk list. -/
theorem build_rag_prompt_greedy_witness :
    ([(⟨"T", "f.pdf", 3, 3, mkRat 1 2⟩ : PChunk)] ≠ []) ∧
    (∃ k, k ≤ (sortDesc [(⟨"T", "f.pdf", 3, 3, mkRat 1 2⟩ : PChunk)]).length ∧
      (build_rag_prompt [(⟨"T", "f.pdf", 3, 3, mkRat 1 2⟩ : PChunk)]
        "Q" (some "S") 2048 256).2 =
        (sortDesc [(⟨"T", "f.pdf", 3, 3, mkRat 1 2⟩ : PChunk)]).take k ∧
      (∀ j < k, estimateTokens ((some "S").getD RAG_SYSTEM_PROMPT)
          + estimateTokens "Question: " + estimateTokens "Q" + 50
          + ((entryTokens (sortDesc [(⟨"T", "f.pdf", 3, 3, mkRat 1 2⟩ : PChunk)]) 1).take
            (j + 1)).sum ≤ 2048 - 256) ∧
      (k < (sortDesc [(⟨"T", "f.pdf", 3, 3, mkRat 1 2⟩ : PChunk)]).length →
        2048 - 256 < estimateTokens ((some "S").getD RAG_SYSTEM_PROMPT)
          + estimateTokens "Question: " + estimateTokens "Q" + 50
          + ((entryTokens (sortDesc [(⟨"T", "f.pdf", 3, 3, mkRat 1 2⟩ : PChunk)]) 1).take
            (k + 1)).sum)) :=
  ⟨by decide,
   (build_rag_prompt_greedy [(⟨"T", "f.pdf", 3, 3, mkRat 1 2⟩ : PChunk)]
     "Q" (some "S") 2048 256 (by decide)).2.2.2⟩

/-- C6 counterexample: the record built by `search_chunks` for a resolved
position has exactly the keys `chunk_id, document_id, text, page_start,
page_end, score, chunk_index` — there is no `filename` field, contrary to
the claim. -/
theorem search_chunks_no_filename :
    (search_chunks [1] [0] [⟨"c1", "d1", "body", 1, 2, 0⟩]).map
      (fun r => r.map Prod.fst) =
      [["chunk_id", "document_id", "text", "page_start", "page_end", "score",
        "chunk_index"]] ∧
    "filename" ∉ ["chunk_id", "document_id", "text", "page_start", "page_end",
      "score", "chunk_index"] := by
  constructor
  · decide
  · decide

/-- C6 (amended): `search_chunks` resolves the index's `(score, position)`
pairs in order, skipping negative positions and positions with no chunk
without shifting later results (it equals a `filterMap` over the zipped
pairs); every returned record has exactly the seven keys
`chunk_id, document_id, text, page_start, page_end, score, chunk_index`
(no `filename`); it returns `[]` when the index returns no positions, and
`[]` when no position resolves. -/
theorem search_chunks_resolution (scores : List ℚ) (indices : List Int)
    (db : List DBChunk) :
    search_chunks scores indices db =
      (scores.zip indices).filterMap (fun p =>
        if p.2 < 0 then none else (db.get? p.2.toNat).map (mkRecord p.1)) ∧
    (∀ r ∈ search_chunks scores indices db,
      r.map Prod.fst = ["chunk_id", "document_id", "text", "page_start",
        "page_end", "score", "chunk_index"]) ∧
    (indices = [] → search_chunks scores indices db = []) ∧
    ((∀ p ∈ scores.zip indices, p.2 < 0 ∨ db.get? p.2.toNat = none) →
      search_chunks scores indices db = []) := by
  have hmain : search_chunks scores indices db =
      (scores.zip indices).filterMap (fun p =>
        if p.2 < 0 then none else (db.get? p.2.toNat).map (mkRecord p.1)) := by
    unfold search_chunks
    by_cases hind : indices = []
    · rw [if_pos hind]
      subst hind
      simp
    · rw [if_neg hind]
      exact searchLoop_eq_filterMap _ db
  refine ⟨hmain, ?_, ?_, ?_⟩
  · intro r hr
    rw [hmain] at hr
    obtain ⟨p, _, hfp⟩ := List.mem_filterMap.1 hr
    by_cases hneg : p.2 < 0
    · rw [if_pos hneg] at hfp
      exact absurd hfp (by simp)
    · rw [if_neg hneg] at hfp
      obtain ⟨ch, _, hmk⟩ := Option.map_eq_some'.1 hfp
      rw [← hmk]
      rfl
  · intro hind
    subst hind
    rfl
  · intro hall
    rw [hmain]
    apply List.filterMap_eq_nil.2
    intro p hp
    by_cases hneg : p.2 < 0
    · rw [if_pos hneg]
    · rcases hall p hp with h | h
      · exact absurd h hneg
      · rw [if_neg hneg, h]
        rfl

/-- C6 witness: a search whose positions are all unresolvable (one
negative, one out of range) returns the empty sequence. -/
theorem search_chunks_resolution_witness :
    (∀ p ∈ ([(1 : ℚ), 2].zip [(-1 : Int), 5]),
      p.2 < 0 ∨ ([(⟨"c", "d", "t", 1, 1, 0⟩ : DBChunk)] : List DBChunk).get? p.2.toNat = none) ∧
    search_chunks [(1 : ℚ), 2] [(-1 : Int), 5] [(⟨"c", "d", "t", 1, 1, 0⟩ : DBChunk)] = [] :=
  ⟨by decide,
   (search_chunks_resolution [(1 : ℚ), 2] [(-1 : Int), 5]
     [(⟨"c", "d", "t", 1, 1, 0⟩ : DBChunk)]).2.2.2 (by decide)⟩

/-- C9: `generate_from_prompt` makes up to `max_retries` attempts with the
capped exponential backoff `min(2^(attempt-1), 5)` between failed
attempts; if every attempt fails it returns an empty answer with the error
marker in its metadata (instead of raising), and if some attempt succeeds
it returns the first successful attempt's answer. -/
theorem generate_from_prompt_retry (max_retries : Nat)
    (gen : Nat → Except String String) :
    ((∀ a, 1 ≤ a → a ≤ max_retries → ∃ e, gen a = .error e) →
      (generate_from_prompt max_retries gen).1.answer = "" ∧
      (generate_from_prompt max_retries gen).1.meta_error = true ∧
      (generate_from_prompt max_retries gen).2 =
        (List.range' 1 (max_retries - 1)).map backoffDelay) ∧
    (∀ a₀ ans, 1 ≤ a₀ → a₀ ≤ max_retries → gen a₀ = .ok ans →
      (∀ a, 1 ≤ a → a < a₀ → ∃ e, gen a = .error e) →
      (generate_from_prompt max_retries gen).1 = okResult ans) := by
  constructor
  · intro hfail
    unfold generate_from_prompt
    have hmem : ∀ a ∈ List.range' 1 max_retries, ∃ e, gen a = .error e := by
      intro a ha
      rw [List.mem_range'_1] at ha
      exact hfail a ha.1 (by omega)
    obtain ⟨h1, h2, h3⟩ := genRun_all_fail gen (List.range' 1 max_retries) none hmem
    refine ⟨h1, h2, ?_⟩
    rw [h3]
    congr 1
    cases max_retries with
    | zero => rfl
    | succ m =>
      rw [List.range'_concat, List.dropLast_concat]
      simp
  · intro a₀ ans ha1 ha2 hok hpre
    have hsplit : List.range' 1 (a₀ - 1) ++ a₀ :: List.range' (a₀ + 1) (max_retries - a₀) =
        List.range' 1 max_retries := by
      have h1 := List.range'_append 1 (a₀ - 1) (max_retries - (a₀ - 1)) 1
      have e1 : 1 + 1 * (a₀ - 1) = a₀ := by omega
      have e2 : max_retries - (a₀ - 1) + (a₀ - 1) = max_retries := by omega
      have e3 : max_retries - (a₀ - 1) = (max_retries - a₀) + 1 := by omega
      rw [e1, e2, e3, List.range'_succ] at h1
      exact h1
    unfold generate_from_prompt
    rw [← hsplit]
    refine genRun_first_ok gen a₀ ans hok _ _ none ?_
    intro a ha
    rw [List.mem_range'_1] at ha
    exact hpre a ha.1 (by omega)

/-- C9 witness: with `max_retries = 3`, a generator that always fails
yields an empty answer, the error marker, and backoff delays `[1, 2]`; a
generator that first succeeds at attempt 2 yields that attempt's answer. -/
theorem generate_from_prompt_retry_witness :
    ((generate_from_prompt 3 (fun _ => .error "boom")).1.answer = "" ∧
     (generate_from_prompt 3 (fun _ => .error "boom")).1.meta_error = true ∧
     (generate_from_prompt 3 (fun _ => .error "boom")).2 = [1, 2]) ∧
    (generate_from_prompt 3
      (fun a => if a = 2 then .ok "yes" else .error "boom")).1 = okResult "yes" := by
  constructor
  · have h := (generate_from_prompt_retry 3 (fun _ => .error "boom")).1
      (fun a _ _ => ⟨"boom", rfl⟩)
    exact ⟨h.1, h.2.1, h.2.2.trans (by decide)⟩
  · refine (generate_from_prompt_retry 3
      (fun a => if a = 2 then .ok "yes" else .error "boom")).2 2 "yes"
      (by omega) (by omega) rfl ?_
    intro a h1 h2
    have ha : a = 1 := by omega
    subst ha
    exact ⟨"boom", rfl⟩

end Studymate
